import Mathlib

/-!
Shallow embedding of the binning and aggregation pipeline of
`src/Food_repositry_viewer_cloud.py` (Food Repository Viewer).

Numeric series are modelled over `ℚ` (exact arithmetic).  A pandas/NumPy
floating value that is not an ordinary number (NaN or ±inf, e.g. the
result of normalising by a zero total intensity) is modelled as
`none : Option ℚ`; an ordinary value `v` is `some v`.
-/

namespace FoodRepo

/-- Minimum of a numeric series, as `pandas.Series.min()` on a non-empty
series (`[]` yields a junk value, never used: callers pass non-empty series). -/
def listMin : List ℚ → ℚ
  | [] => 0
  | x :: xs => xs.foldl min x

/-- Maximum of a numeric series, as `pandas.Series.max()`. -/
def listMax : List ℚ → ℚ
  | [] => 0
  | x :: xs => xs.foldl max x

/-- Model of `np.arange(start, stop, step)` for `step > 0`, in exact
arithmetic: the values `start + k·step` for `0 ≤ k < ⌈(stop - start)/step⌉`. -/
def arange (start stop step : ℚ) : List ℚ :=
  (List.range (⌈(stop - start) / step⌉).toNat).map (fun (k : ℕ) => start + (k : ℚ) * step)

/-- Line 105: `bin_edges = np.arange(retention_time.min(), retention_time.max() + rt_merge_width, rt_merge_width)`. -/
def bin_edges (rt : List ℚ) (w : ℚ) : List ℚ :=
  arange (listMin rt) (listMax rt + w) w

/-- Model of `np.digitize(x, bins)` for increasing `bins` with the default
`right=False`: the index `i` with `bins[i-1] <= x < bins[i]`, i.e. the
number of edges `≤ x` (0 before the first edge, `len(bins)` at or past the
last edge). -/
def digitize (x : ℚ) (bins : List ℚ) : ℕ :=
  (bins.filter (fun e => decide (e ≤ x))).length

/-- Line 106: `bin_indices = np.digitize(retention_time, bins=bin_edges)`. -/
def bin_indices (rt : List ℚ) (w : ℚ) : List ℕ :=
  rt.map (fun x => digitize x (bin_edges rt w))

/-- Line 107: `binned_intensity = [intensity[bin_indices == i].sum() for i in range(1, len(bin_edges))]`.
The positional boolean mask `bin_indices == i` over the aligned series
`retention_time` / `intensity` is rendered by zipping the two series. -/
def binned_intensity (rt ity : List ℚ) (w : ℚ) : List ℚ :=
  (List.range ((bin_edges rt w).length - 1)).map (fun i =>
    (((rt.zip ity).filter (fun p => decide (digitize p.1 (bin_edges rt w) = i + 1))).map
      Prod.snd).sum)

/-- Line 110: `total_intensity = sum(binned_intensity)`. -/
def total_intensity (rt ity : List ℚ) (w : ℚ) : ℚ :=
  (binned_intensity rt ity w).sum

/-- Line 111: `relative_intensity = [val / total_intensity * 100 for val in binned_intensity]`.
IEEE division by a zero total never yields an ordinary number (0/0 is NaN,
v/0 is ±inf), so that case is modelled as `none`. -/
def relative_intensity (rt ity : List ℚ) (w : ℚ) : List (Option ℚ) :=
  (binned_intensity rt ity w).map (fun v =>
    if total_intensity rt ity w = 0 then none
    else some (v / total_intensity rt ity w * 100))

/-- Line 114: `bin_centers = (bin_edges[:-1] + bin_edges[1:]) / 2`. -/
def bin_centers (rt : List ℚ) (w : ℚ) : List ℚ :=
  ((bin_edges rt w).zip (bin_edges rt w).tail).map (fun p => (p.1 + p.2) / 2)

/-- Number of histogram bins: one fewer than the number of edges
(`range(1, len(bin_edges))` in line 107). -/
def num_bins (rt : List ℚ) (w : ℚ) : ℕ :=
  (bin_edges rt w).length - 1

/-- Last bin edge (the greatest value produced by `np.arange`). -/
def last_edge (rt : List ℚ) (w : ℚ) : ℚ :=
  (bin_edges rt w).getLastD 0

/-- The list of histogram bin indices (numbered 1..len(edges)-1 as in
line 107) that a retention time `x` is assigned to; `x` contributes its
intensity to bin `i` exactly when `digitize x = i`. -/
def bins_containing (x : ℚ) (rt : List ℚ) (w : ℚ) : List ℕ :=
  ((List.range ((bin_edges rt w).length - 1)).map (fun i => i + 1)).filter
    (fun i => decide (digitize x (bin_edges rt w) = i))

/-- Lines 126–127: `pd.cut(retention_time, bins=[0, 20, 40, 60, 80, np.inf], labels=bin_labels, right=False)`:
the right-open buckets [0,20), [20,40), [40,60), [60,80), [80,∞).
A retention time below 0 falls in no bucket (`pd.cut` yields NaN there). -/
def bucketOf (x : ℚ) : Option (Fin 5) :=
  if x < 0 then none
  else if x < 20 then some 0
  else if x < 40 then some 1
  else if x < 60 then some 2
  else if x < 80 then some 3
  else some 4

/-- Line 84: `bin_labels = ["0-20 min", "20-40 min", "40-60 min", "60-80 min", "80+ min"]`. -/
def bin_labels : List String :=
  ["0-20 min", "20-40 min", "40-60 min", "60-80 min", "80+ min"]

/-- Lines 130–131: `intensity_sum = data.groupby('RT_range')['intensity'].sum()`
reindexed over `bin_labels` with `fill_value=0`: one absolute intensity sum
per fixed bucket, in fixed label order (a bucket with no points sums to 0). -/
def intensity_sum (rt ity : List ℚ) : List ℚ :=
  (List.finRange 5).map (fun b =>
    (((rt.zip ity).filter (fun p => decide (bucketOf p.1 = some b))).map Prod.snd).sum)

/-- Lines 134–140: the pie chart built by `go.Pie(labels=bin_labels, values=intensity_sum.values, hole=0.3, sort=False, direction="clockwise")`. -/
structure PieChart where
  labels : List String
  values : List ℚ
  sortEnabled : Bool
  direction : String
  title : String
  deriving DecidableEq, Repr

/-- The pie chart the script builds for one sample (lines 134–146). -/
def pie_chart (rt ity : List ℚ) (title : String) : PieChart :=
  { labels := bin_labels
    values := intensity_sum rt ity
    sortEnabled := false
    direction := "clockwise"
    title := title }

/-- The two outputs of the Binning & Aggregation Engine for one sample:
the line-chart series (lines 114–122) and the pie-chart bucket sums
(lines 126–131). -/
structure EngineOutput where
  centers : List ℚ
  relative : List (Option ℚ)
  buckets : List ℚ
  deriving DecidableEq, Repr

/-- The whole engine, lines 104–131, as one pure function of the raw
series and the merge width. -/
def engine (rt ity : List ℚ) (w : ℚ) : EngineOutput :=
  { centers := bin_centers rt w
    relative := relative_intensity rt ity w
    buckets := intensity_sum rt ity }

/-! Helper lemmas about the series minimum and maximum. -/

theorem foldl_min_le_init (xs : List ℚ) : ∀ a : ℚ, xs.foldl min a ≤ a := by
  induction xs with
  | nil => intro a; simp
  | cons y ys ih => intro a; exact le_trans (ih (min a y)) (min_le_left a y)

theorem foldl_min_le_mem (xs : List ℚ) : ∀ a x : ℚ, x ∈ xs → xs.foldl min a ≤ x := by
  induction xs with
  | nil => intro a x hx; cases hx
  | cons y ys ih =>
    intro a x hx
    rcases List.mem_cons.mp hx with rfl | h
    · exact le_trans (foldl_min_le_init ys (min a x)) (min_le_right a x)
    · exact ih (min a y) x h

theorem listMin_le {rt : List ℚ} {x : ℚ} (hx : x ∈ rt) : listMin rt ≤ x := by
  cases rt with
  | nil => cases hx
  | cons y ys =>
    rcases List.mem_cons.mp hx with rfl | h
    · exact foldl_min_le_init ys x
    · exact foldl_min_le_mem ys y x h

theorem init_le_foldl_max (xs : List ℚ) : ∀ a : ℚ, a ≤ xs.foldl max a := by
  induction xs with
  | nil => intro a; simp
  | cons y ys ih => intro a; exact le_trans (le_max_left a y) (ih (max a y))

theorem mem_le_foldl_max (xs : List ℚ) : ∀ a x : ℚ, x ∈ xs → x ≤ xs.foldl max a := by
  induction xs with
  | nil => intro a x hx; cases hx
  | cons y ys ih =>
    intro a x hx
    rcases List.mem_cons.mp hx with rfl | h
    · exact le_trans (le_max_right a x) (init_le_foldl_max ys (max a x))
    · exact ih (max a y) x h

theorem le_listMax {rt : List ℚ} {x : ℚ} (hx : x ∈ rt) : x ≤ listMax rt := by
  cases rt with
  | nil => cases hx
  | cons y ys =>
    rcases List.mem_cons.mp hx with rfl | h
    · exact init_le_foldl_max ys x
    · exact mem_le_foldl_max ys y x h

theorem listMin_le_listMax {rt : List ℚ} (h : rt ≠ []) : listMin rt ≤ listMax rt := by
  cases rt with
  | nil => exact absurd rfl h
  | cons y ys =>
    exact le_trans (listMin_le (List.mem_cons_self y ys)) (le_listMax (List.mem_cons_self y ys))

/-! Helper lemmas about `arange` and the derived bin edges. -/

theorem length_arange (start stop step : ℚ) :
    (arange start stop step).length = (⌈(stop - start) / step⌉).toNat := by
  simp [arange]

theorem arange_getElem (start stop step : ℚ) (i : ℕ)
    (h : i < (arange start stop step).length) :
    (arange start stop step)[i] = start + (i : ℚ) * step := by
  simp [arange]

theorem arange_mem (start stop step : ℚ) (k : ℕ)
    (hk : k < (arange start stop step).length) :
    start + (k : ℚ) * step ∈ arange start stop step := by
  rw [arange]
  rw [length_arange] at hk
  exact List.mem_map.mpr ⟨k, List.mem_range.mpr hk, rfl⟩

theorem arange_head? (start stop step : ℚ) (h : (arange start stop step).length ≠ 0) :
    (arange start stop step).head? = some start := by
  rw [length_arange] at h
  rw [arange]
  obtain ⟨k, hk⟩ : ∃ k, (⌈(stop - start) / step⌉).toNat = k + 1 :=
    ⟨(⌈(stop - start) / step⌉).toNat - 1, by omega⟩
  rw [hk, List.range_succ_eq_map]
  simp

theorem arange_getLastD (start stop step : ℚ) (h : (arange start stop step).length ≠ 0) :
    (arange start stop step).getLastD 0 =
      start + (((arange start stop step).length - 1 : ℕ) : ℚ) * step := by
  rw [length_arange] at h ⊢
  rw [arange]
  obtain ⟨k, hk⟩ : ∃ k, (⌈(stop - start) / step⌉).toNat = k + 1 :=
    ⟨(⌈(stop - start) / step⌉).toNat - 1, by omega⟩
  rw [hk, List.range_succ, List.map_append]
  simp [List.getLastD_concat]

theorem length_bin_edges (rt : List ℚ) (w : ℚ) (hne : rt ≠ []) (hw : 0 < w) :
    (bin_edges rt w).length = (⌈(listMax rt - listMin rt) / w⌉).toNat + 1 := by
  have hMm : listMin rt ≤ listMax rt := listMin_le_listMax hne
  have hw' : w ≠ 0 := ne_of_gt hw
  have h1 : (listMax rt + w - listMin rt) / w = (listMax rt - listMin rt) / w + 1 := by
    field_simp
    ring
  have hc : (0 : ℤ) ≤ ⌈(listMax rt - listMin rt) / w⌉ :=
    Int.ceil_nonneg (div_nonneg (sub_nonneg.mpr hMm) (le_of_lt hw))
  rw [bin_edges, length_arange, h1, Int.ceil_add_one]
  omega

/-- C1: for every non-empty retention-time series and every positive merge
width `w` (in particular every configured width 0.05–1.0), the histogram
bin edges start at `min(rt)`, step by `w`, reach a value `≥ max(rt)`, and
the number of bins equals `⌈(max(rt) - min(rt)) / w⌉`. -/
theorem c1_bin_edges_and_bin_count (rt : List ℚ) (w : ℚ) (hne : rt ≠ []) (hw : 0 < w) :
    (bin_edges rt w).head? = some (listMin rt) ∧
    (∀ i : ℕ, (h : i + 1 < (bin_edges rt w).length) →
      (bin_edges rt w)[i + 1] = (bin_edges rt w)[i] + w) ∧
    (∃ e ∈ bin_edges rt w, listMax rt ≤ e) ∧
    (num_bins rt w : ℤ) = ⌈(listMax rt - listMin rt) / w⌉ := by
  have hMm : listMin rt ≤ listMax rt := listMin_le_listMax hne
  have hw' : w ≠ 0 := ne_of_gt hw
  have hc : (0 : ℤ) ≤ ⌈(listMax rt - listMin rt) / w⌉ :=
    Int.ceil_nonneg (div_nonneg (sub_nonneg.mpr hMm) (le_of_lt hw))
  have hlen : (bin_edges rt w).length = (⌈(listMax rt - listMin rt) / w⌉).toNat + 1 :=
    length_bin_edges rt w hne hw
  have hbe : bin_edges rt w = arange (listMin rt) (listMax rt + w) w := rfl
  have hlen' : (arange (listMin rt) (listMax rt + w) w).length
      = (⌈(listMax rt - listMin rt) / w⌉).toNat + 1 := by rw [← hbe]; exact hlen
  refine ⟨?_, ?_, ?_, ?_⟩
  · rw [hbe]
    exact arange_head? _ _ _ (by omega)
  · intro i h
    have e1 : (bin_edges rt w)[i + 1] = listMin rt + ((i + 1 : ℕ) : ℚ) * w :=
      arange_getElem _ _ _ (i + 1) h
    have e2 : (bin_edges rt w)[i] = listMin rt + (i : ℚ) * w :=
      arange_getElem _ _ _ i (by omega)
    rw [e1, e2]
    push_cast
    ring
  · refine ⟨listMin rt + ((⌈(listMax rt - listMin rt) / w⌉).toNat : ℚ) * w, ?_, ?_⟩
    · rw [hbe]
      exact arange_mem _ _ _ _ (by omega)
    · have h2 : (listMax rt - listMin rt) / w ≤ (⌈(listMax rt - listMin rt) / w⌉ : ℚ) :=
        Int.le_ceil _
      have h3 : listMax rt - listMin rt ≤ (⌈(listMax rt - listMin rt) / w⌉ : ℚ) * w :=
        (div_le_iff₀ hw).mp h2
      have h4 : ((⌈(listMax rt - listMin rt) / w⌉.toNat : ℤ) : ℚ)
          = ((⌈(listMax rt - listMin rt) / w⌉ : ℤ) : ℚ) := by
        rw [Int.toNat_of_nonneg hc]
      push_cast at h4
      rw [h4]
      linarith
  · rw [num_bins, hlen]
    omega

/-- Witness for C1 at the concrete series rt = [0, 1/2] with w = 1/5. -/
theorem c1_bin_edges_and_bin_count_witness :
    (num_bins [0, 1/2] (1/5) : ℤ) = ⌈(listMax [0, 1/2] - listMin [0, 1/2]) / (1/5 : ℚ)⌉ :=
  (c1_bin_edges_and_bin_count [0, 1/2] (1/5) (List.cons_ne_nil 0 [1/2]) (by norm_num)).2.2.2

/-! Helper lemmas about `digitize` and bin membership. -/

theorem one_le_digitize {x e : ℚ} {edges : List ℚ} (he : e ∈ edges) (hle : e ≤ x) :
    1 ≤ digitize x edges := by
  rw [digitize]
  have hmem : e ∈ edges.filter (fun e => decide (e ≤ x)) :=
    List.mem_filter.mpr ⟨he, by simpa⟩
  have := List.length_pos.mpr (List.ne_nil_of_mem hmem)
  omega

theorem length_filter_lt_of_mem {p : ℚ → Bool} {l : List ℚ} {e : ℚ}
    (he : e ∈ l) (hpe : p e = false) : (l.filter p).length < l.length := by
  induction l with
  | nil => cases he
  | cons a t ih =>
    rcases List.mem_cons.mp he with rfl | h
    · rw [List.filter_cons, hpe]
      simp only [Bool.false_eq_true, if_false, List.length_cons]
      exact Nat.lt_succ_of_le (List.length_filter_le _ t)
    · rw [List.filter_cons]
      by_cases hpa : p a = true
      · simp only [hpa, if_true, List.length_cons]
        exact Nat.succ_lt_succ (ih h)
      · simp only [hpa, if_false, List.length_cons]
        exact Nat.lt_succ_of_lt (ih h)

theorem digitize_lt_length {x e : ℚ} {edges : List ℚ} (he : e ∈ edges) (hgt : x < e) :
    digitize x edges < edges.length := by
  rw [digitize]
  exact length_filter_lt_of_mem he (by simpa using not_le.mpr hgt)

theorem range_map_succ_filter_eq {d k : ℕ} (h1 : 1 ≤ d) (h2 : d ≤ k) :
    ((List.range k).map (fun i => i + 1)).filter (fun i => decide (d = i)) = [d] := by
  induction k with
  | zero => omega
  | succ k ih =>
    rw [List.range_succ, List.map_append, List.filter_append]
    rcases Nat.lt_or_ge d (k + 1) with hlt | hge
    · have hdk : d ≤ k := by omega
      rw [ih hdk]
      have : ([k].map (fun i => i + 1)).filter (fun i => decide (d = i)) = [] := by
        rw [List.filter_eq_nil_iff]
        intro a ha
        rcases List.mem_map.mp ha with ⟨j, hj, rfl⟩
        simp only [List.mem_singleton] at hj
        simp only [decide_eq_true_eq]
        omega
      rw [this, List.append_nil]
    · have hd : d = k + 1 := by omega
      have hnil : ((List.range k).map (fun i => i + 1)).filter (fun i => decide (d = i)) = [] := by
        rw [List.filter_eq_nil_iff]
        intro a ha
        rcases List.mem_map.mp ha with ⟨j, hj, rfl⟩
        have := List.mem_range.mp hj
        simp only [decide_eq_true_eq]
        omega
      rw [hnil, hd]
      simp

theorem listMin_mem_bin_edges (rt : List ℚ) (w : ℚ) (hne : rt ≠ []) (hw : 0 < w) :
    listMin rt ∈ bin_edges rt w := by
  have hlen := length_bin_edges rt w hne hw
  have hsame : (arange (listMin rt) (listMax rt + w) w).length = (bin_edges rt w).length := rfl
  have h0 : listMin rt + ((0 : ℕ) : ℚ) * w ∈ arange (listMin rt) (listMax rt + w) w :=
    arange_mem _ _ _ 0 (by omega)
  simpa using h0

theorem last_edge_eq (rt : List ℚ) (w : ℚ) (hne : rt ≠ []) (hw : 0 < w) :
    last_edge rt w = listMin rt + (((bin_edges rt w).length - 1 : ℕ) : ℚ) * w := by
  have hlen := length_bin_edges rt w hne hw
  rw [last_edge]
  exact arange_getLastD _ _ _ (by rw [← bin_edges]; omega)

theorem last_edge_mem (rt : List ℚ) (w : ℚ) (hne : rt ≠ []) (hw : 0 < w) :
    last_edge rt w ∈ bin_edges rt w := by
  have hlen := length_bin_edges rt w hne hw
  rw [last_edge_eq rt w hne hw]
  exact arange_mem _ _ _ _ (by rw [← bin_edges] at *; omega)

theorem mem_bin_edges_le_last (rt : List ℚ) (w : ℚ) (hne : rt ≠ []) (hw : 0 < w)
    {e : ℚ} (he : e ∈ bin_edges rt w) : e ≤ last_edge rt w := by
  have hlen := length_bin_edges rt w hne hw
  rw [last_edge_eq rt w hne hw]
  rcases List.mem_map.mp he with ⟨k, hk, rfl⟩
  have hk' : k < (bin_edges rt w).length := by
    have hkr : k < (⌈(listMax rt + w - listMin rt) / w⌉).toNat := List.mem_range.mp hk
    have hlen2 : (bin_edges rt w).length = (⌈(listMax rt + w - listMin rt) / w⌉).toNat :=
      length_arange _ _ _
    omega
  have hkle : (k : ℚ) ≤ (((bin_edges rt w).length - 1 : ℕ) : ℚ) := by
    have : k ≤ (bin_edges rt w).length - 1 := by omega
    exact_mod_cast this
  have := mul_le_mul_of_nonneg_right hkle (le_of_lt hw)
  linarith

/-- C2: for every series and every merge width with a positive total binned
intensity, every bin's relative intensity is a defined value and the
relative intensities sum to exactly 100 across all histogram bins. -/
theorem c2_relative_intensity_sums_to_100 (rt ity : List ℚ) (w : ℚ)
    (h : 0 < total_intensity rt ity w) :
    (∀ o ∈ relative_intensity rt ity w, o.isSome) ∧
    ((relative_intensity rt ity w).filterMap id).sum = 100 := by
  have hT : total_intensity rt ity w ≠ 0 := ne_of_gt h
  have hrel : relative_intensity rt ity w
      = (binned_intensity rt ity w).map
          (fun v => some (v / total_intensity rt ity w * 100)) := by
    rw [relative_intensity]
    exact List.map_congr_left (fun v _ => by rw [if_neg hT])
  constructor
  · intro o ho
    rw [hrel] at ho
    rcases List.mem_map.mp ho with ⟨v, _, hv⟩
    rw [← hv]
    rfl
  · rw [hrel]
    have hfm : ∀ l : List ℚ,
        (l.map (fun v => some (v / total_intensity rt ity w * 100))).filterMap id
          = l.map (fun v => v / total_intensity rt ity w * 100) := by
      intro l
      induction l with
      | nil => rfl
      | cons a t ih => simp [List.filterMap_cons, ih]
    rw [hfm]
    have hfun : (fun v : ℚ => v / total_intensity rt ity w * 100)
        = (fun v : ℚ => v * (100 / total_intensity rt ity w)) := by
      funext v
      rw [div_mul_eq_mul_div, mul_div_assoc]
    rw [hfun, List.sum_map_mul_right]
    have hid : List.map (fun v : ℚ => v) (binned_intensity rt ity w)
        = binned_intensity rt ity w := List.map_id _
    rw [hid]
    show total_intensity rt ity w * (100 / total_intensity rt ity w) = 100
    field_simp

/-- Witness for C2 at rt = [0, 3/10], intensity = [1, 1], w = 1/5
(total binned intensity 2 > 0). -/
theorem c2_relative_intensity_sums_to_100_witness :
    ((relative_intensity [0, 3/10] [1, 1] (1/5)).filterMap id).sum = 100 :=
  (c2_relative_intensity_sums_to_100 [0, 3/10] [1, 1] (1/5)
    (by with_unfolding_all decide)).2

/-- C3 is false of the code: in the series rt = [0, 1] with merge width
w = 1 (a configured value), the point with retention time 1 (the maximum)
is a member of the series yet is assigned to no histogram bin at all
(`np.digitize` gives it index `len(bin_edges)`, which line 107 never sums). -/
theorem c3_counterexample :
    (1 : ℚ) ∈ [(0 : ℚ), 1] ∧ bins_containing 1 [0, 1] 1 = [] := by
  with_unfolding_all decide

/-- C3 (amended): every input point whose retention time is strictly below
the last bin edge is assigned to exactly one histogram bin; a point at or
above the last edge — which can only be a maximal point, when
`max - min` is an exact multiple of `w` (including the `min = max` case) —
is excluded from every bin. -/
theorem c3_point_bin_assignment (rt : List ℚ) (w : ℚ) (x : ℚ)
    (hne : rt ≠ []) (hw : 0 < w) (hx : x ∈ rt) :
    (x < last_edge rt w → (bins_containing x rt w).length = 1) ∧
    (last_edge rt w ≤ x → bins_containing x rt w = []) := by
  have hlen := length_bin_edges rt w hne hw
  constructor
  · intro hlt
    have hd1 : 1 ≤ digitize x (bin_edges rt w) :=
      one_le_digitize (listMin_mem_bin_edges rt w hne hw) (listMin_le hx)
    have hd2 : digitize x (bin_edges rt w) < (bin_edges rt w).length :=
      digitize_lt_length (last_edge_mem rt w hne hw) hlt
    rw [bins_containing, range_map_succ_filter_eq hd1 (by omega)]
    rfl
  · intro hge
    have hall : (bin_edges rt w).filter (fun e => decide (e ≤ x)) = bin_edges rt w :=
      List.filter_eq_self.mpr (fun e he => by
        simpa using le_trans (mem_bin_edges_le_last rt w hne hw he) hge)
    have hd : digitize x (bin_edges rt w) = (bin_edges rt w).length := by
      rw [digitize, hall]
    rw [bins_containing, List.filter_eq_nil_iff]
    intro a ha
    rcases List.mem_map.mp ha with ⟨j, hj, rfl⟩
    have := List.mem_range.mp hj
    simp only [decide_eq_true_eq, hd]
    omega

/-- Witness for the amended C3 at x = 0 in rt = [0, 1/2] with w = 1/5
(last edge 3/5 > 0, so the point lies in exactly one bin). -/
theorem c3_point_bin_assignment_witness :
    (bins_containing 0 [0, 1/2] (1/5)).length = 1 :=
  (c3_point_bin_assignment [0, 1/2] (1/5) 0 (List.cons_ne_nil 0 [1/2])
    (by norm_num) (by with_unfolding_all decide)).1 (by with_unfolding_all decide)

/-- C5 is false of the code: the series rt = [0, 3/10], intensity = [0, 0]
with w = 1/5 produces 2 bins and a zero total, and the normalization of
line 111 divides by that zero total, producing an undefined (non-finite,
NaN-like) value for every bin, which is exactly what is handed to the
chart trace. -/
theorem c5_counterexample :
    num_bins [0, 3/10] (1/5) = 2 ∧
    relative_intensity [0, 3/10] [0, 0] (1/5) = [none, none] := by
  with_unfolding_all decide

/-- C5 (amended): whenever the total binned intensity is 0, line 111
produces the undefined value for every histogram bin (one per bin) and
passes them on; the series is neither zeroed out nor skipped. -/
theorem c5_zero_total_gives_undefined (rt ity : List ℚ) (w : ℚ)
    (h : total_intensity rt ity w = 0) :
    (relative_intensity rt ity w).length = num_bins rt w ∧
    ∀ o ∈ relative_intensity rt ity w, o = none := by
  constructor
  · rw [relative_intensity, List.length_map, binned_intensity, List.length_map,
      List.length_range, num_bins]
  · intro o ho
    rw [relative_intensity] at ho
    rcases List.mem_map.mp ho with ⟨v, _, hv⟩
    rw [if_pos h] at hv
    exact hv.symm

/-- Witness for the amended C5 at rt = [0, 3/10], intensity = [0, 0], w = 1/5. -/
theorem c5_zero_total_gives_undefined_witness :
    (relative_intensity [0, 3/10] [0, 0] (1/5)).length = num_bins [0, 3/10] (1/5) :=
  (c5_zero_total_gives_undefined [0, 3/10] [0, 0] (1/5) (by with_unfolding_all decide)).1

/-- C6 is false of the code: the single-point series rt = [1] (so
min = max) with w = 1/5 yields a bin-edge sequence of length 1 — fewer
than the 2 edges the claim requires. -/
theorem c6_counterexample :
    listMin [(1 : ℚ)] = listMax [(1 : ℚ)] ∧ (bin_edges [(1 : ℚ)] (1/5)).length = 1 := by
  with_unfolding_all decide

/-- C6 (amended): for every non-empty series whose retention-time range is
a single point and every positive width, the edge sequence has exactly one
edge, so the histogram has zero bins (not at least one). -/
theorem c6_single_point_zero_bins (rt : List ℚ) (w : ℚ) (hne : rt ≠ []) (hw : 0 < w)
    (heq : listMin rt = listMax rt) :
    (bin_edges rt w).length = 1 ∧ num_bins rt w = 0 := by
  have hlen := length_bin_edges rt w hne hw
  have hzero : listMax rt - listMin rt = 0 := by rw [heq]; ring
  rw [hzero, zero_div] at hlen
  simp only [Int.ceil_zero, Int.toNat_zero, Nat.zero_add] at hlen
  exact ⟨hlen, by rw [num_bins, hlen]⟩

/-- Witness for the amended C6 at rt = [1], w = 1/5. -/
theorem c6_single_point_zero_bins_witness :
    (bin_edges [(1 : ℚ)] (1/5)).length = 1 ∧ num_bins [(1 : ℚ)] (1/5) = 0 :=
  c6_single_point_zero_bins [1] (1/5) (List.cons_ne_nil 1 []) (by norm_num) rfl

/-! Helper lemmas about the composition buckets. -/

theorem finRange_map_getD (f : Fin 5 → ℚ) (b : Fin 5) :
    ((List.finRange 5).map f).getD (b : ℕ) 0 = f b := by
  fin_cases b <;> rfl

theorem bucketOf_isSome {x : ℚ} (hx : 0 ≤ x) : (bucketOf x).isSome := by
  rw [bucketOf, if_neg (not_lt.mpr hx)]
  split_ifs <;> rfl

theorem sum_bucket_indicator (p : ℚ × ℚ) (hp : (bucketOf p.1).isSome) :
    (∑ b : Fin 5, if bucketOf p.1 = some b then p.2 else 0) = p.2 := by
  obtain ⟨b0, hb0⟩ := Option.isSome_iff_exists.mp hp
  have hcong : ∀ b : Fin 5, (if bucketOf p.1 = some b then p.2 else 0)
      = if b0 = b then p.2 else 0 := by
    intro b
    rw [hb0]
    simp [Option.some.injEq]
  rw [Finset.sum_congr rfl (fun b _ => hcong b), Finset.sum_ite_eq]
  simp

theorem filtered_bucket_sums_add_up (pts : List (ℚ × ℚ))
    (h : ∀ p ∈ pts, (bucketOf p.1).isSome) :
    ((List.finRange 5).map (fun b =>
        ((pts.filter (fun p => decide (bucketOf p.1 = some b))).map Prod.snd).sum)).sum
      = (pts.map Prod.snd).sum := by
  rw [← Fin.sum_univ_def]
  induction pts with
  | nil => simp
  | cons p t ih =>
    have hp : (bucketOf p.1).isSome := h p (List.mem_cons_self p t)
    have ht : ∀ q ∈ t, (bucketOf q.1).isSome := fun q hq => h q (List.mem_cons_of_mem p hq)
    have hsplit : ∀ b : Fin 5,
        (((p :: t).filter (fun q => decide (bucketOf q.1 = some b))).map Prod.snd).sum
          = (if bucketOf p.1 = some b then p.2 else 0)
            + ((t.filter (fun q => decide (bucketOf q.1 = some b))).map Prod.snd).sum := by
      intro b
      rw [List.filter_cons]
      by_cases hb : bucketOf p.1 = some b
      · simp [hb]
      · simp [hb]
    calc (∑ b : Fin 5,
            (((p :: t).filter (fun q => decide (bucketOf q.1 = some b))).map Prod.snd).sum)
        = ∑ b : Fin 5, ((if bucketOf p.1 = some b then p.2 else 0)
            + ((t.filter (fun q => decide (bucketOf q.1 = some b))).map Prod.snd).sum) :=
          Finset.sum_congr rfl (fun b _ => hsplit b)
      _ = (∑ b : Fin 5, if bucketOf p.1 = some b then p.2 else 0)
            + ∑ b : Fin 5, ((t.filter (fun q => decide (bucketOf q.1 = some b))).map Prod.snd).sum :=
          Finset.sum_add_distrib
      _ = p.2 + (t.map Prod.snd).sum := by rw [sum_bucket_indicator p hp, ih ht]
      _ = ((p :: t).map Prod.snd).sum := by simp

/-- C4: for every input series the composition-bucket transform yields
exactly 5 values, attached to the fixed labels in their fixed order; a
bucket containing no points holds the sum 0 rather than being dropped; the
values are the unnormalized absolute intensity sums; and the pie is built
with sorting disabled (clockwise), so values are never resorted. -/
theorem c4_composition_buckets (rt ity : List ℚ) (t : String) :
    (pie_chart rt ity t).labels
        = ["0-20 min", "20-40 min", "40-60 min", "60-80 min", "80+ min"] ∧
    (pie_chart rt ity t).values.length = 5 ∧
    (pie_chart rt ity t).sortEnabled = false ∧
    (pie_chart rt ity t).direction = "clockwise" ∧
    (∀ b : Fin 5, (pie_chart rt ity t).values.getD (b : ℕ) 0
        = (((rt.zip ity).filter (fun p => decide (bucketOf p.1 = some b))).map Prod.snd).sum) ∧
    (∀ b : Fin 5, (∀ p ∈ rt.zip ity, bucketOf p.1 ≠ some b) →
        (pie_chart rt ity t).values.getD (b : ℕ) 0 = 0) := by
  refine ⟨rfl, rfl, rfl, rfl, ?_, ?_⟩
  · intro b
    show (intensity_sum rt ity).getD (b : ℕ) 0 = _
    rw [intensity_sum]
    exact finRange_map_getD _ b
  · intro b hb
    have hnil : (rt.zip ity).filter (fun p => decide (bucketOf p.1 = some b)) = [] :=
      List.filter_eq_nil_iff.mpr (fun p hp => by simpa using hb p hp)
    show (intensity_sum rt ity).getD (b : ℕ) 0 = 0
    rw [intensity_sum, finRange_map_getD (fun b =>
      (((rt.zip ity).filter (fun p => decide (bucketOf p.1 = some b))).map Prod.snd).sum) b,
      hnil]
    rfl

/-- Witness for C4: the spec example rt = [10, 30, 90], intensity =
[5, 5, 10] leaves bucket 2 ("40-60 min") empty, and its value is 0. -/
theorem c4_composition_buckets_witness :
    (pie_chart [10, 30, 90] [5, 5, 10] "s").values.getD 2 0 = 0 :=
  (c4_composition_buckets [10, 30, 90] [5, 5, 10] "s").2.2.2.2.2 2
    (by with_unfolding_all decide)

/-- C9: the Binning & Aggregation Engine is a pure function of the raw
series and the merge width — two runs on identical input (however the
inputs were obtained) give identical histogram and composition-bucket
outputs, with no hidden state involved. -/
theorem c9_engine_deterministic (rt ity rt' ity' : List ℚ) (w w' : ℚ)
    (hrt : rt = rt') (hity : ity = ity') (hw : w = w') :
    engine rt ity w = engine rt' ity' w' := by
  rw [hrt, hity, hw]

/-- Witness for C9 on a concrete run. -/
theorem c9_engine_deterministic_witness :
    engine [1] [2] (1/5) = engine [1] [2] (1/5) :=
  c9_engine_deterministic [1] [2] [1] [2] (1/5) (1/5) rfl rfl rfl

/-- C10 (implicit): when every retention time is nonnegative, the five
fixed composition buckets [0,20), [20,40), [40,60), [60,80), [80,∞)
partition the points: the bucket sums add up exactly to the total
intensity of all input points, with nothing counted twice or dropped. -/
theorem c10_bucket_sums_add_to_total (rt ity : List ℚ) (h : ∀ x ∈ rt, 0 ≤ x) :
    (intensity_sum rt ity).sum = ((rt.zip ity).map Prod.snd).sum := by
  have h' : ∀ p ∈ rt.zip ity, (bucketOf p.1).isSome := by
    intro p hp
    obtain ⟨a, b⟩ := p
    exact bucketOf_isSome (h a (List.of_mem_zip hp).1)
  rw [intensity_sum]
  exact filtered_bucket_sums_add_up (rt.zip ity) h'

/-- Witness for C10 at the spec example rt = [10, 30, 90], intensity = [5, 5, 10]. -/
theorem c10_bucket_sums_add_to_total_witness :
    (intensity_sum [10, 30, 90] [5, 5, 10]).sum
      = (([(10 : ℚ), 30, 90].zip [(5 : ℚ), 5, 10]).map Prod.snd).sum :=
  c10_bucket_sums_add_to_total [10, 30, 90] [5, 5, 10] (by with_unfolding_all decide)

/-! Model of the per-sample fetch-and-render loop (lines 80–150). -/

/-- One decoded JSON record of a peak payload; a field that is absent (or
not a number) is `none` — `pd.DataFrame` stores NaN in such a cell, and
omits the column entirely when no record carries the field. -/
structure PeakRecord where
  rt : Option ℚ
  intensity : Option ℚ
  deriving DecidableEq, Repr

/-- The HTTP response for one sample: status code and decoded body
(lines 92–96). -/
structure Response where
  status_code : ℕ
  body : List PeakRecord
  deriving DecidableEq, Repr

/-- An uncaught Python exception; the loop body has no handler, so such an
exception terminates the whole script run. -/
inductive PyErr where
  | keyError (key : String)
  deriving DecidableEq, Repr

/-- One trace of the overlay line chart, `go.Scatter(x=bin_centers,
y=relative_intensity, name=...)` (lines 117–122). -/
structure Trace where
  name : String
  x : List ℚ
  y : List (Option ℚ)
  deriving DecidableEq, Repr

/-- The warning of line 150; it names the failing sample id and shows its
status code. -/
structure SampleWarning where
  fid : String
  status_code : ℕ
  deriving DecidableEq, Repr

/-- Accumulated output of the loop over the selected samples: traces added
to the shared figure, per-sample pie charts, and warnings. -/
structure BatchState where
  traces : List Trace
  pies : List PieChart
  warnings : List SampleWarning
  deriving DecidableEq, Repr

/-- Column access `data['rt']` / `data['intensity']` on
`pd.DataFrame(peaklist)` (lines 97–102): the column exists iff some record
carries the field (an empty payload gives a frame with no columns), else a
`KeyError` is raised; a record without the field yields NaN (`none`) in
its cell. -/
def getColumn (key : String) (field : PeakRecord → Option ℚ) (body : List PeakRecord) :
    Except PyErr (List (Option ℚ)) :=
  if body.all (fun r => (field r).isNone) then .error (.keyError key)
  else .ok (body.map field)

/-- Pandas NaN semantics of the engine input (lines 101–131): a row whose
`rt` cell is NaN joins no `np.digitize` bin and no `pd.cut` bucket and is
skipped by `min`/`max` (skipna), and a NaN intensity contributes 0 to every
sum (pandas `.sum()` skips NaN).  Both are captured by dropping NaN-rt rows
and replacing NaN intensities by 0 before running the pure engine. -/
def toSeries (rtCol ityCol : List (Option ℚ)) : List ℚ × List ℚ :=
  ((rtCol.zip ityCol).filterMap (fun r => r.1.map (fun v => (v, r.2.getD 0)))).unzip

/-- The body of the `for fid in selected_fids` loop (lines 86–150) for one
sample: on status 200 read the two columns (a missing column raises
KeyError and aborts), run the engine, and append one trace and one pie
chart; on any other status append one warning naming the sample id and
keep going. -/
def processSample (w : ℚ) (fid name : String) (resp : Response) (s : BatchState) :
    Except PyErr BatchState :=
  if resp.status_code = 200 then do
    let rtCol ← getColumn "rt" PeakRecord.rt resp.body
    let ityCol ← getColumn "intensity" PeakRecord.intensity resp.body
    let rt := (toSeries rtCol ityCol).1
    let ity := (toSeries rtCol ityCol).2
    let label := name ++ " (ID: " ++ fid ++ ")"
    .ok { s with
          traces := s.traces ++
            [{ name := label, x := bin_centers rt w, y := relative_intensity rt ity w }],
          pies := s.pies ++ [pie_chart rt ity label] }
  else
    .ok { s with warnings := s.warnings ++ [{ fid := fid, status_code := resp.status_code }] }

/-- The loop over the selected samples from a given starting state; an
uncaught exception in one iteration aborts all remaining iterations. -/
def processFrom (w : ℚ) (samples : List (String × String × Response)) (s : BatchState) :
    Except PyErr BatchState :=
  match samples with
  | [] => .ok s
  | (fid, name, resp) :: rest => do
    let s' ← processSample w fid name resp s
    processFrom w rest s'

/-- The whole confirmed-selection pass (lines 80–150), starting from the
empty figure, empty pie list and no warnings. -/
def processBatch (w : ℚ) (samples : List (String × String × Response)) :
    Except PyErr BatchState :=
  processFrom w samples ⟨[], [], []⟩

/-- A well-formed payload for a sample whose fetch succeeds. -/
def goodBody1 : List PeakRecord := [⟨some 1, some 10⟩, ⟨some 2, some 5⟩]

/-- Another well-formed payload. -/
def goodBody2 : List PeakRecord := [⟨some 30, some 7⟩]

/-- A batch of three selected samples in which the second fetch returns
HTTP 500 and the other two return well-formed data. -/
def batch3 : List (String × String × Response) :=
  [("F1", "s1", ⟨200, goodBody1⟩), ("F2", "s2", ⟨500, []⟩), ("F3", "s3", ⟨200, goodBody2⟩)]

/-- C7: a fetch with a non-success status adds exactly one warning naming
that sample id (with the status code), adds no trace and no pie chart, and
returns normally so the loop continues with the remaining samples; in
particular the concrete batch of 3 samples whose second fetch returns
HTTP 500 yields exactly 2 line traces, 2 pie charts, and the single
warning naming sample "F2". -/
theorem c7_fetch_failure_is_per_sample (w : ℚ) (fid name : String) (resp : Response)
    (s : BatchState) (h : resp.status_code ≠ 200) :
    processSample w fid name resp s
        = .ok { s with warnings := s.warnings
            ++ [{ fid := fid, status_code := resp.status_code }] } ∧
    (processBatch (1/5) batch3).map
        (fun out => (out.traces.length, out.pies.length, out.warnings))
      = .ok (2, 2, [{ fid := "F2", status_code := 500 }]) := by
  constructor
  · rw [processSample, if_neg h]
  · with_unfolding_all rfl

/-- Witness for C7: the failing sample alone produces exactly its warning
and nothing else. -/
theorem c7_fetch_failure_is_per_sample_witness :
    processSample (1/5) "F2" "s2" ⟨500, []⟩ ⟨[], [], []⟩
      = .ok ⟨[], [], [{ fid := "F2", status_code := 500 }]⟩ :=
  (c7_fetch_failure_is_per_sample (1/5) "F2" "s2" ⟨500, []⟩ ⟨[], [], []⟩ (by decide)).1

/-- A 200 response whose records all lack the `rt` field. -/
def malformedBody : List PeakRecord := [⟨none, some 5⟩]

/-- A batch whose second sample returns the malformed payload. -/
def batchMalformed : List (String × String × Response) :=
  [("F1", "s1", ⟨200, goodBody1⟩), ("F2", "s2", ⟨200, malformedBody⟩),
   ("F3", "s3", ⟨200, goodBody2⟩)]

/-- C8 is false of the code: in a batch of three samples whose second
returns HTTP 200 with a payload missing the `rt` field, the access
`data['rt']` (line 101) raises an uncaught KeyError which terminates the
whole run — the sample is NOT treated as a per-sample fetch failure, no
warning is recorded, and the remaining sample is never processed (nothing
at all is rendered). -/
theorem c8_counterexample :
    processBatch (1/5) batchMalformed = .error (.keyError "rt") := by
  with_unfolding_all rfl

/-- C8 (amended): a 200 payload in which no record carries the `rt` field
raises an uncaught KeyError instead of producing a warning, and that
exception aborts the processing of every remaining sample of the batch. -/
theorem c8_malformed_payload_aborts_batch (w : ℚ) (fid name : String)
    (body : List PeakRecord) (s : BatchState)
    (rest : List (String × String × Response))
    (h : ∀ r ∈ body, r.rt = none) :
    processSample w fid name ⟨200, body⟩ s = .error (.keyError "rt") ∧
    processFrom w ((fid, name, ⟨200, body⟩) :: rest) s = .error (.keyError "rt") := by
  have hcol : getColumn "rt" PeakRecord.rt body = .error (.keyError "rt") := by
    rw [getColumn, if_pos]
    exact List.all_eq_true.mpr (fun r hr => by rw [h r hr]; rfl)
  have hps : processSample w fid name ⟨200, body⟩ s = .error (.keyError "rt") := by
    rw [processSample, if_pos rfl, hcol]
    rfl
  refine ⟨hps, ?_⟩
  simp only [processFrom]
  rw [hps]
  rfl

/-- Witness for the amended C8 at the concrete malformed payload. -/
theorem c8_malformed_payload_aborts_batch_witness :
    processSample (1/5) "F2" "s2" ⟨200, malformedBody⟩ ⟨[], [], []⟩
      = .error (.keyError "rt") :=
  (c8_malformed_payload_aborts_batch (1/5) "F2" "s2" malformedBody ⟨[], [], []⟩ []
    (by decide)).1

end FoodRepo
